import Mathlib

/-
Verification of scripts/rhodl_ratio_raw_data.py.

The script is a linear pipeline: fetch JSON from an HTTP API with bounded
retries, normalize the rows into dated records, save them as a local JSON
snapshot, and synchronize columns A/B of a spreadsheet worksheet (either
overwriting or appending only missing dates).

Shallow embedding conventions:
 - Python scalar JSON values that can appear in an API row are modelled by
   `JVal` (a number, a boolean, or null); `int(...)` and `float(...)` are
   modelled by `pyInt` and `pyFloat`, failing (TypeError) on null exactly as
   Python does, and truncating toward zero for `int` of a number.
 - A UTC calendar date is modelled by its epoch-day number (an `Int`).
   `datetime.fromtimestamp(ts_ms / 1000, tz=timezone.utc).date()` is the date
   whose epoch day is `⌊ts_ms / 86400000⌋` (exact integer arithmetic; for
   timestamps within `datetime.date`'s representable range the binary64
   division `ts_ms / 1000` never crosses a day boundary, and ISO date strings
   of four-digit years compare lexicographically exactly as their epoch days
   compare numerically, so sorting by the ISO string is sorting by this Int).
 - Python floats arising from the data (ratio, price) are modelled as exact
   rationals `Rat`.
 - Uncaught Python exceptions are modelled by `Except PyErr`; `sys.exit` /
   `raise SystemExit` fatal terminations are modelled as distinct outcomes.
 - A worksheet is modelled as its rectangular (possibly ragged) grid of data
   cells, `Grid := List (List CV)`; cells outside the grid read as `CV.empty`.
-/

namespace RHODL

/-- A scalar JSON value as it can appear in a field of an API data row. -/
inductive JVal where
  | num (q : Rat)
  | boolv (b : Bool)
  | null
deriving DecidableEq

/-- One raw API row: a JSON object from which the script reads the keys
`timestamp`, `rhodl_ratio` and (optionally) `price`.  A `none` field models
an absent key. -/
structure RawRow where
  timestamp : Option JVal
  rhodl_ratio : Option JVal
  price : Option JVal
deriving DecidableEq

/-- An uncaught Python exception raised while normalizing a row. -/
inductive PyErr where
  | keyError (k : String)
  | typeError
deriving DecidableEq

/-- Python `int(x)` on a scalar JSON value: truncates a number toward zero,
maps booleans to 0/1, raises TypeError on null. -/
def pyInt : JVal → Except PyErr Int
  | .num q => .ok (q.num.tdiv (q.den : Int))
  | .boolv b => .ok (if b then 1 else 0)
  | .null => .error .typeError

/-- Python `float(x)` on a scalar JSON value: numbers pass through, booleans
map to 0.0/1.0, null raises TypeError. -/
def pyFloat : JVal → Except PyErr Rat
  | .num q => .ok q
  | .boolv b => .ok (if b then 1 else 0)
  | .null => .error .typeError

/-- Python `row[k]`: raises KeyError when the key is absent. -/
def getKey (k : String) : Option JVal → Except PyErr JVal
  | some v => .ok v
  | none => .error (.keyError k)

/-- The UTC calendar date (as an epoch-day number) of an epoch-millisecond
timestamp: `datetime.fromtimestamp(ts_ms / 1000, tz=timezone.utc).date()`. -/
def epochDay (tsMs : Int) : Int := tsMs.fdiv 86400000

/-- One normalized record, as built by `normalize`:
`{date, rhodl_ratio, price, timestamp_ms}` with the ISO date string
represented by its epoch-day number. -/
structure Record where
  date : Int
  rhodl_ratio : Rat
  price : Rat
  timestamp_ms : Int
deriving DecidableEq

/-- The body of `normalize`'s per-row loop:
`ts_ms = int(row["timestamp"])`, `date = utc date of ts_ms`, then the record
`{date, float(row["rhodl_ratio"]), float(row.get("price", 0.0)), ts_ms}`,
evaluated in Python's order so the first failing access raises. -/
def toRecord (row : RawRow) : Except PyErr Record :=
  match getKey "timestamp" row.timestamp with
  | .error e => .error e
  | .ok tsv =>
    match pyInt tsv with
    | .error e => .error e
    | .ok tsMs =>
      match getKey "rhodl_ratio" row.rhodl_ratio with
      | .error e => .error e
      | .ok rv =>
        match pyFloat rv with
        | .error e => .error e
        | .ok ratio =>
          match (match row.price with
                 | some v => pyFloat v
                 | none => .ok (0 : Rat)) with
          | .error e => .error e
          | .ok price =>
              .ok { date := epochDay tsMs, rhodl_ratio := ratio,
                    price := price, timestamp_ms := tsMs }

/-- The accumulation loop of `normalize`: builds the `out` list in input
order, propagating the first uncaught exception. -/
def mapToRecords : List RawRow → Except PyErr (List Record)
  | [] => .ok []
  | row :: rest =>
      match toRecord row with
      | .error e => .error e
      | .ok r =>
          match mapToRecords rest with
          | .error e => .error e
          | .ok rs => .ok (r :: rs)

/-- Stable insertion of a record into a (sorted) accumulator: the record goes
after every element whose date is less than or equal to its own. -/
def insertByDate (r : Record) : List Record → List Record
  | [] => [r]
  | x :: xs => if x.date ≤ r.date then x :: insertByDate r xs else r :: x :: xs

/-- `out.sort(key=lambda x: x["date"])`: Python's stable ascending sort by the
date key, modelled by stable insertion sort (equal to any stable ascending
sort extensionally). -/
def pySortByDate (l : List Record) : List Record :=
  l.foldl (fun acc r => insertByDate r acc) []

/-- Insertion into a Python dict (as an association list in insertion order):
an existing key keeps its position but its value is overwritten; a new key is
appended at the end. -/
def dictInsert (m : List (Int × Record)) (k : Int) (v : Record) :
    List (Int × Record) :=
  if m.any (fun p => p.1 = k) then
    m.map (fun p => if p.1 = k then (k, v) else p)
  else
    m ++ [(k, v)]

/-- `{rec["date"]: rec for rec in l}`: the date-keyed dict built by inserting
each record in list order. -/
def dictOfByDate (l : List Record) : List (Int × Record) :=
  l.foldl (fun m rec => dictInsert m rec.date rec) []

/-- `normalize(records)`: map rows to records, sort ascending by date
(stable), then dedup by date keeping the last occurrence via a dict
comprehension, returning the dict's values in insertion order. -/
def normalize (rows : List RawRow) : Except PyErr (List Record) :=
  match mapToRecords rows with
  | .error e => .error e
  | .ok out => .ok ((dictOfByDate (pySortByDate out)).map Prod.snd)

/-- The observable trace of one run of `fetch_rhodl_json`: the final result
(parsed JSON, or the fatal `SystemExit` carrying `max_retries` and the last
underlying error), the list of attempt numbers actually issued, and the list
of back-off sleep durations (in seconds) actually performed. -/
structure FetchTrace (E J : Type) where
  result : Except (Nat × Option E) J
  attemptsMade : List Nat
  sleeps : List Rat

/-- The retry loop of `fetch_rhodl_json` (`for attempt in range(1,
max_retries + 1)`), with `remaining` iterations left, at attempt number
`attempt`, with `lastErr` the last error seen so far.  `tryAt n` is the
outcome of the `n`-th HTTP GET (a `requests.RequestException`, or the parsed
JSON on success).  On a failure before the last attempt the loop sleeps
`1.5 * attempt` seconds; when the loop ends a fatal `SystemExit` reports
`max_retries` and the last error. -/
def fetchGo (tryAt : Nat → Except E J) (maxRetries : Nat) :
    Nat → Nat → Option E → FetchTrace E J
  | 0, _, lastErr => ⟨.error (maxRetries, lastErr), [], []⟩
  | remaining + 1, attempt, _ =>
      match tryAt attempt with
      | .ok j => ⟨.ok j, [attempt], []⟩
      | .error e =>
          let rest := fetchGo tryAt maxRetries remaining (attempt + 1) (some e)
          ⟨rest.result, attempt :: rest.attemptsMade,
            (if attempt < maxRetries then [3 / 2 * (attempt : Rat)] else [])
              ++ rest.sleeps⟩

/-- `fetch_rhodl_json(api_key, max_retries=3)`: run the retry loop over the
attempts `1, ..., max_retries` with no error seen yet. -/
def fetch_rhodl_json (tryAt : Nat → Except E J) (maxRetries : Nat := 3) :
    FetchTrace E J :=
  fetchGo tryAt maxRetries maxRetries 1 none

/-- A spreadsheet cell value: empty, a text string, a number, or an ISO date
string (represented by its epoch-day number; `date.isoformat` is injective and
order-preserving on four-digit years). -/
inductive CV where
  | empty
  | str (s : String)
  | num (q : Rat)
  | date (d : Int)
deriving DecidableEq

/-- A worksheet's data region: a list of rows of cell values, possibly
ragged.  Cells beyond a row's length or beyond the last row read as
`CV.empty`. -/
abbrev Grid := List (List CV)

/-- The cell at row `i`, column `j` (both 0-based). -/
def cellAt (g : Grid) (i j : Nat) : CV :=
  ((g.getD i []).getD j CV.empty)

/-- Clearing row cells in columns A and B (`ws.batch_clear(["A:B"])` acts on
each row of the sheet). -/
def clearABRow : List CV → List CV
  | [] => []
  | [_] => [CV.empty]
  | _ :: _ :: t => CV.empty :: CV.empty :: t

/-- `ws.batch_clear(["A:B"])`: clear the values of columns A and B in every
row, leaving all other columns intact. -/
def batch_clear_AB (g : Grid) : Grid := g.map clearABRow

/-- Clearing the `userEnteredValue` of the cells of a row whose column index
`j` satisfies `startCol ≤ j < endCol` (the row has no row bound in the
request, so every row is processed). -/
def clearColsFrom (startCol endCol : Nat) : Nat → List CV → List CV
  | _, [] => []
  | j, c :: t =>
      (if startCol ≤ j ∧ j < endCol then CV.empty else c)
        :: clearColsFrom startCol endCol (j + 1) t

/-- The fallback clear for older spreadsheet clients: a raw `updateCells`
request over `startRowIndex 0`, `startColumnIndex 0`, `endColumnIndex 2`,
with no end-row bound and `fields: "userEnteredValue"`, i.e. clear the value
of every cell with column index in `[0, 2)` in every row. -/
def batch_clear_fallback (g : Grid) : Grid := g.map (clearColsFrom 0 2 0)

/-- `ws.update(range_name="A1:B{n}", values=vals)`: write the given rows (each
of length 2 here) into the top-left of the sheet, each written row replacing
the first `v.length` cells of the corresponding sheet row and extending the
grid if needed. -/
def updateTopLeft : Grid → List (List CV) → Grid
  | g, [] => g
  | [], v :: vs => v :: updateTopLeft [] vs
  | row :: g, v :: vs => (v ++ row.drop v.length) :: updateTopLeft g vs

/-- The A/B sheet row written for one record: `[r["date"], r["rhodl_ratio"]]`. -/
def recRow (r : Record) : List CV := [CV.date r.date, CV.num r.rhodl_ratio]

/-- The header row written to A1:B1. -/
def headerRow : List CV := [CV.str "Date", CV.str "RHODL Ratio"]

/-- `write_cols_ab_overwrite(ws, records)`: build header + data rows, clear
only columns A:B, then write the rows into `A1:B{len(rows)}`. -/
def write_cols_ab_overwrite (g : Grid) (records : List Record) : Grid :=
  updateTopLeft (batch_clear_AB g) (headerRow :: records.map recRow)

/-- Whether a cell is empty (gspread's `col_values` stops at the last
non-empty cell of the column). -/
def isEmptyCV : CV → Bool
  | .empty => true
  | _ => false

/-- Python truthiness of a cell value as returned in `col_values` (the `if x`
filter): empty cells and empty strings are falsy, as is the number 0. -/
def truthy : CV → Bool
  | .empty => false
  | .str s => !s.isEmpty
  | .num q => decide (q ≠ 0)
  | .date _ => true

/-- Drop the trailing empty cells of a column read. -/
def dropTrailingEmpty (l : List CV) : List CV :=
  (l.reverse.dropWhile isEmptyCV).reverse

/-- `ws.col_values(1)`: the values of column A from the top down to the last
non-empty cell. -/
def colValuesA (g : Grid) : List CV :=
  dropTrailingEmpty (g.map (fun row => row.getD 0 CV.empty))

/-- `append_only_cols_ab(ws, records)`: read column A; if it is completely
empty, write the header into A1:B1 and use an empty set of existing dates,
otherwise take the existing dates to be the truthy values after the header
cell; append (at the end of the sheet) one A/B row per record whose date is
not among the existing dates, in input order; return the resulting sheet and
the number of rows appended. -/
def append_only_cols_ab (g : Grid) (records : List Record) : Grid × Nat :=
  let existing := colValuesA g
  let ws1 := if existing.isEmpty then updateTopLeft g [headerRow] else g
  let existingDates : List CV :=
    if existing.isEmpty then [] else (existing.drop 1).filter truthy
  let newRows :=
    (records.filter (fun r => !existingDates.contains (CV.date r.date))).map recRow
  (if newRows.isEmpty then ws1 else ws1 ++ newRows, newRows.length)

/-- A JSON document, as written by `json.dump` and read back by `json.load`.
`jdate` is an ISO date string (represented by its epoch-day number), `jint` a
JSON integer, `jnum` a JSON float. -/
inductive Json where
  | jnum (q : Rat)
  | jint (n : Int)
  | jdate (d : Int)
  | jstr (s : String)
  | jarr (l : List Json)
  | jobj (l : List (String × Json))

/-- The JSON object `json.dump` writes for one record (fields in the dict's
insertion order). -/
def recordToJson (r : Record) : Json :=
  .jobj [("date", .jdate r.date), ("rhodl_ratio", .jnum r.rhodl_ratio),
         ("price", .jnum r.price), ("timestamp_ms", .jint r.timestamp_ms)]

/-- `save_json(path, data)` writes exactly this JSON document (the JSON array
of the records' objects) to the file. -/
def save_json_doc (records : List Record) : Json :=
  .jarr (records.map recordToJson)

/-- Read one record back from its parsed JSON object. -/
def jsonToRecord : Json → Option Record
  | .jobj [("date", .jdate d), ("rhodl_ratio", .jnum q),
           ("price", .jnum p), ("timestamp_ms", .jint t)] =>
      some ⟨d, q, p, t⟩
  | _ => none

/-- Read a record list back from a parsed JSON array. -/
def decodeList : List Json → Option (List Record)
  | [] => some []
  | j :: t =>
      match jsonToRecord j with
      | none => none
      | some r =>
          match decodeList t with
          | none => none
          | some rs => some (r :: rs)

/-- Parse a whole saved file back into a record list. -/
def jsonToRecords : Json → Option (List Record)
  | .jarr l => decodeList l
  | _ => none

/-- The shape of the fetched API response as tested by `main`: not a dict,
a dict without a `"data"` key, or a dict whose `"data"` is a row list. -/
inductive ApiResp where
  | nondict
  | dictNoData
  | dictData (rows : List RawRow)

/-- An outcome of the normalization stage of `main`: a descriptive
`sys.exit` for a malformed response shape, an uncaught Python exception
propagating out of `normalize`, or the normalized records. -/
inductive MainOutcome where
  | fatalExit (msg : String)
  | pyException (e : PyErr)
  | ok (recs : List Record)

/-- The response-shape check and `normalize` call in `main`:
`if not isinstance(raw, dict) or "data" not in raw: sys.exit(...)`, then
`records = normalize(raw["data"])` with no exception handler around it. -/
def mainNormalizeStage : ApiResp → MainOutcome
  | .nondict => .fatalExit "Unexpected API response shape"
  | .dictNoData => .fatalExit "Unexpected API response shape"
  | .dictData rows =>
      match normalize rows with
      | .error e => .pyException e
      | .ok recs => .ok recs

/-! ### Helper lemmas: the stable sort -/

/-- The date-key comparison used by the sort. -/
def dateLE (a b : Record) : Prop := a.date ≤ b.date

theorem mem_insertByDate {y r : Record} {l : List Record} :
    y ∈ insertByDate r l ↔ y = r ∨ y ∈ l := by
  induction l with
  | nil => simp [insertByDate]
  | cons x xs ih =>
      by_cases h : x.date ≤ r.date
      · simp [insertByDate, h, ih]
        tauto
      · simp [insertByDate, h]

theorem perm_insertByDate (r : Record) (l : List Record) :
    List.Perm (insertByDate r l) (r :: l) := by
  induction l with
  | nil => simp [insertByDate]
  | cons x xs ih =>
      by_cases h : x.date ≤ r.date
      · simpa [insertByDate, h] using ((ih.cons x).trans (List.Perm.swap r x xs))
      · simp [insertByDate, h]

theorem pairwise_insertByDate {l : List Record} (r : Record)
    (h : l.Pairwise dateLE) : (insertByDate r l).Pairwise dateLE := by
  induction l with
  | nil => simp [insertByDate, dateLE]
  | cons x xs ih =>
      rcases List.pairwise_cons.mp h with ⟨hx, hxs⟩
      by_cases hle : x.date ≤ r.date
      · rw [insertByDate, if_pos hle]
        refine List.pairwise_cons.mpr ⟨?_, ih hxs⟩
        intro y hy
        rcases mem_insertByDate.mp hy with rfl | hy
        · exact hle
        · exact hx y hy
      · rw [insertByDate, if_neg hle]
        refine List.pairwise_cons.mpr ⟨?_, h⟩
        intro y hy
        rcases List.mem_cons.mp hy with rfl | hy
        · exact le_of_not_le hle
        · exact le_trans (le_of_not_le hle) (hx y hy)

theorem filter_gt_head_eq_nil {x : Record} {xs : List Record} {d : Int}
    (h : (x :: xs).Pairwise dateLE) (hd : d < x.date) :
    (x :: xs).filter (fun y => y.date = d) = [] := by
  rw [List.filter_eq_nil_iff]
  intro a ha
  rcases List.mem_cons.mp ha with rfl | ha
  · simp [ne_of_gt hd]
  · rcases List.pairwise_cons.mp h with ⟨hx, _⟩
    have : x.date ≤ a.date := hx a ha
    simp [ne_of_gt (lt_of_lt_of_le hd this)]

theorem filter_insertByDate {l : List Record} (r : Record) (d : Int)
    (h : l.Pairwise dateLE) :
    (insertByDate r l).filter (fun y => y.date = d) =
      if r.date = d then l.filter (fun y => y.date = d) ++ [r]
      else l.filter (fun y => y.date = d) := by
  induction l with
  | nil => by_cases hr : r.date = d <;> simp [insertByDate, hr]
  | cons x xs ih =>
      rcases List.pairwise_cons.mp h with ⟨_, hxs⟩
      by_cases hle : x.date ≤ r.date
      · rw [insertByDate, if_pos hle]
        by_cases hx : x.date = d <;>
          by_cases hr : r.date = d <;>
            simp [List.filter_cons, hx, hr, ih hxs]
      · rw [insertByDate, if_neg hle]
        by_cases hr : r.date = d
        · have hnil : (x :: xs).filter (fun y => y.date = d) = [] :=
            filter_gt_head_eq_nil h (hr ▸ lt_of_not_le hle)
          simp [List.filter_cons, hr, hnil]
        · simp [List.filter_cons, hr]

theorem pairwise_foldl_insert (l : List Record) :
    ∀ acc : List Record, acc.Pairwise dateLE →
      (l.foldl (fun acc r => insertByDate r acc) acc).Pairwise dateLE := by
  induction l with
  | nil => intro acc h; simpa using h
  | cons x xs ih =>
      intro acc h
      exact ih (insertByDate x acc) (pairwise_insertByDate x h)

theorem perm_foldl_insert (l : List Record) :
    ∀ acc : List Record,
      List.Perm (l.foldl (fun acc r => insertByDate r acc) acc) (acc ++ l) := by
  induction l with
  | nil => intro acc; simp
  | cons x xs ih =>
      intro acc
      have h1 := ih (insertByDate x acc)
      have h2 := (perm_insertByDate x acc).append_right xs
      exact h1.trans (h2.trans List.perm_middle.symm)

theorem filter_foldl_insert (d : Int) (l : List Record) :
    ∀ acc : List Record, acc.Pairwise dateLE →
      (l.foldl (fun acc r => insertByDate r acc) acc).filter (fun y => y.date = d) =
        acc.filter (fun y => y.date = d) ++ l.filter (fun y => y.date = d) := by
  induction l with
  | nil => intro acc _; simp
  | cons x xs ih =>
      intro acc h
      have step := ih (insertByDate x acc) (pairwise_insertByDate x h)
      by_cases hx : x.date = d <;>
        simp [List.foldl_cons, step, filter_insertByDate x d h, hx, List.filter_cons]

theorem pairwise_pySortByDate (l : List Record) :
    (pySortByDate l).Pairwise dateLE :=
  pairwise_foldl_insert l [] (by simp)

theorem perm_pySortByDate (l : List Record) : List.Perm (pySortByDate l) l := by
  simpa using perm_foldl_insert l []

theorem filter_pySortByDate (d : Int) (l : List Record) :
    (pySortByDate l).filter (fun y => y.date = d) =
      l.filter (fun y => y.date = d) := by
  simpa using filter_foldl_insert d l [] (by simp)

/-! ### Helper lemmas: the date-keyed dict -/

theorem mem_of_getLast?_eq_some {α : Type} {l : List α} {a : α}
    (h : l.getLast? = some a) : a ∈ l := by
  rcases List.mem_getLast?_eq_getLast (l := l) (x := a) (by rw [h]; rfl) with
    ⟨hne, rfl⟩
  exact List.getLast_mem hne

theorem getLast?_cons_or {α : Type} (a : α) (l : List α) :
    (a :: l).getLast? = l.getLast?.or (some a) := by
  induction l generalizing a with
  | nil => rfl
  | cons b t ih =>
      rw [List.getLast?_cons_cons, ih b, Option.or_assoc]
      simp [Option.or]

theorem mem_dictInsert {m : List (Int × Record)} {k : Int} {v : Record}
    {p : Int × Record} :
    p ∈ dictInsert m k v ↔ p = (k, v) ∨ (p ∈ m ∧ p.1 ≠ k) := by
  by_cases h : m.any (fun p => p.1 = k)
  · rw [dictInsert, if_pos h]
    simp only [List.any_eq_true, decide_eq_true_eq] at h
    simp only [List.mem_map]
    constructor
    · rintro ⟨q, hq, rfl⟩
      by_cases hk : q.1 = k
      · simp [hk]
      · simp [hk]
        tauto
    · rintro (rfl | ⟨hp, hpk⟩)
      · rcases h with ⟨q, hq, hqk⟩
        exact ⟨q, hq, by simp [hqk]⟩
      · exact ⟨p, hp, by simp [hpk]⟩
  · rw [dictInsert, if_neg h]
    simp only [List.any_eq_true, decide_eq_true_eq, not_exists, not_and] at h
    simp only [List.mem_append, List.mem_singleton]
    constructor
    · rintro (hp | rfl)
      · exact Or.inr ⟨hp, h p hp⟩
      · exact Or.inl rfl
    · tauto

theorem mem_foldl_dictInsert (l : List Record) :
    ∀ (m : List (Int × Record)) (pk : Int) (pv : Record),
      ((pk, pv) ∈ l.foldl (fun m r => dictInsert m r.date r) m ↔
        ((l.filter (fun r => r.date = pk)).getLast? = some pv ∨
          (l.filter (fun r => r.date = pk) = [] ∧ (pk, pv) ∈ m))) := by
  induction l with
  | nil => intro m pk pv; simp
  | cons r l ih =>
      intro m pk pv
      rw [List.foldl_cons, ih (dictInsert m r.date r) pk pv]
      by_cases hr : r.date = pk
      · rw [List.filter_cons_of_pos (by simp [hr]), getLast?_cons_or]
        rcases hfl : l.filter (fun x => x.date = pk) with _ | ⟨q, t⟩
        · rw [hfl]
          simp only [List.getLast?_nil, Option.or]
          rw [mem_dictInsert]
          constructor
          · rintro (h | ⟨-, (h | ⟨-, hpk⟩)⟩)
            · exact absurd h (by simp)
            · rw [Prod.mk.injEq] at h
              exact Or.inl (by rw [h.2])
            · exact absurd hr.symm hpk
          · rintro (h | ⟨h, -⟩)
            · rw [Option.some.injEq] at h
              exact Or.inr ⟨by trivial,
                Or.inl (by rw [Prod.mk.injEq]; exact ⟨hr.symm, h.symm⟩)⟩
            · exact absurd h (by simp)
        · have hx : (q :: t).getLast? = some ((q :: t).getLast (by simp)) :=
            List.getLast?_eq_getLast_of_ne_nil (by simp)
          rw [hfl, hx]
          simp [Option.or]
      · rw [List.filter_cons_of_neg (by simp [hr]), mem_dictInsert]
        constructor
        · rintro (h | ⟨hnil, (h | ⟨hm, -⟩)⟩)
          · exact Or.inl h
          · rw [Prod.mk.injEq] at h
            exact absurd h.1.symm hr
          · exact Or.inr ⟨hnil, hm⟩
        · rintro (h | ⟨hnil, hm⟩)
          · exact Or.inl h
          · exact Or.inr ⟨hnil, Or.inr ⟨hm, fun hc => hr hc.symm⟩⟩

theorem mem_dictOfByDate {l : List Record} {pk : Int} {pv : Record} :
    (pk, pv) ∈ dictOfByDate l ↔
      (l.filter (fun r => r.date = pk)).getLast? = some pv := by
  rw [dictOfByDate, mem_foldl_dictInsert l [] pk pv]
  simp

theorem key_eq_date_of_mem_dictOfByDate {l : List Record} {p : Int × Record}
    (h : p ∈ dictOfByDate l) : p.1 = p.2.date := by
  obtain ⟨pk, pv⟩ := p
  have h1 := List.mem_filter.mp (mem_of_getLast?_eq_some (mem_dictOfByDate.mp h))
  have h2 : pv.date = pk := by simpa using h1.2
  exact h2.symm

theorem keys_dictInsert_of_any {m : List (Int × Record)} {k : Int} (v : Record)
    (h : m.any (fun p => p.1 = k)) :
    (dictInsert m k v).map Prod.fst = m.map Prod.fst := by
  rw [dictInsert, if_pos h, List.map_map]
  apply List.map_congr_left
  intro q _
  by_cases hk : q.1 = k <;> simp [hk]

theorem keys_dictInsert_of_not_any {m : List (Int × Record)} {k : Int}
    (v : Record) (h : ¬ m.any (fun p => p.1 = k)) :
    (dictInsert m k v).map Prod.fst = m.map Prod.fst ++ [k] := by
  rw [dictInsert, if_neg h]
  simp

theorem nodup_keys_foldl_dictInsert (l : List Record) :
    ∀ m : List (Int × Record), (m.map Prod.fst).Nodup →
      ((l.foldl (fun m r => dictInsert m r.date r) m).map Prod.fst).Nodup := by
  induction l with
  | nil => intro m h; simpa using h
  | cons r l ih =>
      intro m h
      rw [List.foldl_cons]
      refine ih (dictInsert m r.date r) ?_
      by_cases ha : m.any (fun p => p.1 = r.date)
      · rwa [keys_dictInsert_of_any r ha]
      · rw [keys_dictInsert_of_not_any r ha]
        simp only [List.any_eq_true, decide_eq_true_eq, not_exists, not_and] at ha
        rw [List.nodup_append]
        refine ⟨h, by simp, ?_⟩
        intro x hx
        rcases List.mem_map.mp hx with ⟨q, hq, rfl⟩
        simpa using fun hc => (ha q hq) hc

/-! ### Helper lemmas: the per-row mapping -/

/-- The relation between an input row and the record `normalize`'s loop body
builds from it: `timestamp_ms` is `int(row["timestamp"])`, `date` its UTC
epoch day, `rhodl_ratio` is `float(row["rhodl_ratio"])`, and `price` is
`float(row["price"])` when the key is present and `0.0` otherwise. -/
def MappedFrom (row : RawRow) (rec : Record) : Prop :=
  ∃ vts vr, row.timestamp = some vts ∧ row.rhodl_ratio = some vr ∧
    pyInt vts = .ok rec.timestamp_ms ∧
    rec.date = epochDay rec.timestamp_ms ∧
    pyFloat vr = .ok rec.rhodl_ratio ∧
    (match row.price with
     | none => rec.price = 0
     | some vp => pyFloat vp = .ok rec.price)

theorem getKey_ok {k : String} {o : Option JVal} {v : JVal}
    (h : getKey k o = .ok v) : o = some v := by
  cases o with
  | none => exact absurd h (by simp [getKey])
  | some a => rw [getKey] at h; injection h with h; rw [h]

theorem toRecord_ok_mapped {row : RawRow} {rec : Record}
    (h : toRecord row = .ok rec) : MappedFrom row rec := by
  rw [toRecord] at h
  rcases hts : getKey "timestamp" row.timestamp with e | tsv
  · simp only [hts] at h
    exact absurd h (by simp)
  simp only [hts] at h
  rcases hint : pyInt tsv with e | tsMs
  · simp only [hint] at h
    exact absurd h (by simp)
  simp only [hint] at h
  rcases hrv : getKey "rhodl_ratio" row.rhodl_ratio with e | rv
  · simp only [hrv] at h
    exact absurd h (by simp)
  simp only [hrv] at h
  rcases hfv : pyFloat rv with e | ratio
  · simp only [hfv] at h
    exact absurd h (by simp)
  simp only [hfv] at h
  rcases hpr : (match row.price with
               | some v => pyFloat v
               | none => .ok (0 : Rat)) with e | price
  · simp only [hpr] at h
    exact absurd h (by simp)
  simp only [hpr, Except.ok.injEq] at h
  subst h
  refine ⟨tsv, rv, getKey_ok hts, getKey_ok hrv, hint, rfl, hfv, ?_⟩
  cases hp : row.price with
  | none =>
      rw [hp] at hpr
      injection hpr with hpr
      exact hpr.symm
  | some vp =>
      rw [hp] at hpr
      exact hpr

theorem mapToRecords_ok_forall2 {rows : List RawRow} :
    ∀ {out : List Record}, mapToRecords rows = .ok out →
      List.Forall₂ (fun row r => toRecord row = .ok r) rows out := by
  induction rows with
  | nil =>
      intro out h
      rw [mapToRecords] at h
      injection h with h
      subst h
      exact List.Forall₂.nil
  | cons row rest ih =>
      intro out h
      rw [mapToRecords] at h
      rcases htr : toRecord row with e | r0
      · rw [htr] at h; exact absurd h (by simp)
      rw [htr] at h
      rcases hmr : mapToRecords rest with e | rs
      · rw [hmr] at h; exact absurd h (by simp)
      rw [hmr] at h
      injection h with h
      subst h
      exact List.Forall₂.cons htr (ih hmr)

theorem forall2_mem_right {R : RawRow → Record → Prop} {rows : List RawRow}
    {out : List Record} (h : List.Forall₂ R rows out) :
    ∀ r ∈ out, ∃ row ∈ rows, R row r := by
  induction h with
  | nil => intro r hr; simp at hr
  | cons hR htail ih =>
      intro r hr
      rcases List.mem_cons.mp hr with rfl | hr'
      · exact ⟨_, by simp, hR⟩
      · rcases ih r hr' with ⟨row', hrow', hR'⟩
        exact ⟨row', by simp [hrow'], hR'⟩

theorem mapToRecords_ok_mem {rows : List RawRow} {out : List Record}
    (h : mapToRecords rows = .ok out) :
    ∀ r ∈ out, ∃ row ∈ rows, toRecord row = .ok r :=
  forall2_mem_right (mapToRecords_ok_forall2 h)

/-- Whether Python evaluates `normalize`'s loop body for this row without
raising: `timestamp` present and convertible by `int`, `rhodl_ratio` present
and convertible by `float`, and `price`, when present, convertible by
`float`. -/
def rowOk (row : RawRow) : Bool :=
  (match row.timestamp with | some v => (pyInt v).isOk | none => false) &&
  (match row.rhodl_ratio with | some v => (pyFloat v).isOk | none => false) &&
  (match row.price with | some v => (pyFloat v).isOk | none => true)

/-- The row condition named by the specification: `timestamp` present and
convertible, `rhodl_ratio` present and convertible (nothing about
`price`). -/
def rowTsRatioOk (row : RawRow) : Bool :=
  (match row.timestamp with | some v => (pyInt v).isOk | none => false) &&
  (match row.rhodl_ratio with | some v => (pyFloat v).isOk | none => false)

theorem toRecord_isOk_eq (row : RawRow) : (toRecord row).isOk = rowOk row := by
  cases hts : row.timestamp with
  | none => simp [toRecord, rowOk, hts, getKey, Except.isOk, Except.toBool]
  | some vts =>
      cases hint : pyInt vts with
      | error e => simp [toRecord, rowOk, hts, getKey, hint, Except.isOk, Except.toBool]
      | ok tsMs =>
          cases hrv : row.rhodl_ratio with
          | none => simp [toRecord, rowOk, hts, getKey, hint, hrv, Except.isOk, Except.toBool]
          | some vr =>
              cases hfv : pyFloat vr with
              | error e => simp [toRecord, rowOk, hts, getKey, hint, hrv, hfv, Except.isOk, Except.toBool]
              | ok ratio =>
                  cases hp : row.price with
                  | none =>
                      simp [toRecord, rowOk, hts, getKey, hint, hrv, hfv, hp,
                        Except.isOk, Except.toBool]
                  | some vp =>
                      cases hpv : pyFloat vp with
                      | error e =>
                          simp [toRecord, rowOk, hts, getKey, hint, hrv, hfv,
                            hp, hpv, Except.isOk, Except.toBool]
                      | ok p =>
                          simp [toRecord, rowOk, hts, getKey, hint, hrv, hfv,
                            hp, hpv, Except.isOk, Except.toBool]

theorem mapToRecords_isOk_eq (rows : List RawRow) :
    (mapToRecords rows).isOk = rows.all rowOk := by
  induction rows with
  | nil => rfl
  | cons row rest ih =>
      rw [List.all_cons, ← ih, ← toRecord_isOk_eq row]
      cases htr : toRecord row <;> cases hmr : mapToRecords rest <;>
        simp [mapToRecords, htr, hmr, Except.isOk, Except.toBool]

theorem normalize_isOk_eq (rows : List RawRow) :
    (normalize rows).isOk = rows.all rowOk := by
  rw [← mapToRecords_isOk_eq]
  cases hmr : mapToRecords rows <;>
    simp [normalize, hmr, Except.isOk, Except.toBool]

theorem normalize_ok_elim {rows : List RawRow} {recs : List Record}
    (h : normalize rows = .ok recs) :
    ∃ out, mapToRecords rows = .ok out ∧
      recs = (dictOfByDate (pySortByDate out)).map Prod.snd := by
  cases hm : mapToRecords rows with
  | error e =>
      rw [normalize, hm] at h
      exact absurd h (by simp)
  | ok out =>
      rw [normalize, hm] at h
      injection h with h
      exact ⟨out, rfl, h.symm⟩

theorem keys_foldl_dictInsert_sublist (l : List Record) :
    ∀ m : List (Int × Record),
      ∃ t, (l.foldl (fun m r => dictInsert m r.date r) m).map Prod.fst
          = m.map Prod.fst ++ t ∧ t.Sublist (l.map (fun r => r.date)) := by
  induction l with
  | nil => intro m; exact ⟨[], by simp⟩
  | cons r l ih =>
      intro m
      rw [List.foldl_cons]
      rcases ih (dictInsert m r.date r) with ⟨t, ht, hs⟩
      by_cases ha : m.any (fun p => p.1 = r.date)
      · rw [keys_dictInsert_of_any r ha] at ht
        exact ⟨t, ht, List.Sublist.cons r.date hs⟩
      · rw [keys_dictInsert_of_not_any r ha, List.append_assoc] at ht
        exact ⟨r.date :: t, by simpa using ht, List.Sublist.cons₂ r.date hs⟩

/-! ### Helper lemmas: the worksheet grid -/

theorem getD_clearABRow (row : List CV) (j : Nat) :
    (clearABRow row).getD j CV.empty =
      if j < 2 then CV.empty else row.getD j CV.empty := by
  rcases row with _ | ⟨a, _ | ⟨b, t⟩⟩ <;>
    rcases j with _ | _ | j <;>
      simp [clearABRow]
  rw [if_neg (by omega)]

theorem cellAt_batch_clear_AB (g : Grid) (i j : Nat) :
    cellAt (batch_clear_AB g) i j =
      if j < 2 then CV.empty else cellAt g i j := by
  induction g generalizing i with
  | nil => simp [batch_clear_AB, cellAt]
  | cons row g ih =>
      rcases i with _ | i
      · simpa [batch_clear_AB, cellAt] using getD_clearABRow row j
      · simp only [batch_clear_AB, cellAt, List.map_cons, List.getD_cons_succ]
        simpa [batch_clear_AB, cellAt] using ih i

theorem clearColsFrom_past (t : List CV) :
    ∀ j, 2 ≤ j → clearColsFrom 0 2 j t = t := by
  induction t with
  | nil => intro j _; rfl
  | cons c t ih =>
      intro j hj
      rw [clearColsFrom, if_neg (by omega), ih (j + 1) (by omega)]

theorem clearColsFrom_eq_clearABRow (row : List CV) :
    clearColsFrom 0 2 0 row = clearABRow row := by
  rcases row with _ | ⟨a, _ | ⟨b, t⟩⟩
  · rfl
  · simp [clearColsFrom, clearABRow]
  · simp [clearColsFrom, clearABRow, clearColsFrom_past t 2 (by omega)]

theorem cellAt_cons_succ (row : List CV) (g : Grid) (i j : Nat) :
    cellAt (row :: g) (i + 1) j = cellAt g i j := rfl

theorem cellAt_nil (i j : Nat) : cellAt [] i j = CV.empty := by
  simp [cellAt]

theorem cellAt_updateTopLeft (vals : List (List CV))
    (hv : ∀ v ∈ vals, v.length = 2) :
    ∀ (g : Grid) (i j : Nat),
      cellAt (updateTopLeft g vals) i j =
        if i < vals.length ∧ j < 2 then (vals.getD i []).getD j CV.empty
        else cellAt g i j := by
  induction vals with
  | nil => intro g i j; simp [updateTopLeft]
  | cons v vs ih =>
      have hv2 : v.length = 2 := hv v (by simp)
      have hvs : ∀ w ∈ vs, w.length = 2 := fun w hw => hv w (by simp [hw])
      intro g i j
      rcases g with _ | ⟨row, grest⟩
      · rcases i with _ | i
        · rw [updateTopLeft]
          by_cases hj : j < 2
          · rw [if_pos ⟨by simp, hj⟩]
            rfl
          · rw [if_neg (fun hc => hj hc.2), cellAt_nil]
            have hnone : v[j]? = none := List.getElem?_eq_none (by omega)
            simp [cellAt, hnone]
        · rw [updateTopLeft, cellAt_cons_succ, ih hvs [] i j]
          by_cases hj : j < 2
          · by_cases hi : i < vs.length
            · rw [if_pos ⟨hi, hj⟩, if_pos ⟨Nat.succ_lt_succ hi, hj⟩]
              rfl
            · rw [if_neg (fun hc => hi hc.1),
                  if_neg (fun hc => hi (Nat.lt_of_succ_lt_succ hc.1))]
              simp [cellAt_nil]
          · rw [if_neg (fun hc => hj hc.2), if_neg (fun hc => hj hc.2)]
            simp [cellAt_nil]
      · rcases i with _ | i
        · rw [updateTopLeft]
          by_cases hj : j < 2
          · rw [if_pos ⟨by simp, hj⟩]
            show (v ++ row.drop v.length).getD j CV.empty = _
            rw [List.getD_append _ _ _ j (by omega)]
            rfl
          · rw [if_neg (fun hc => hj hc.2)]
            show (v ++ row.drop v.length).getD j CV.empty =
              cellAt (row :: grest) 0 j
            rw [List.getD_append_right _ _ _ j (by omega), hv2]
            have hdg : (row.drop 2).getD (j - 2) CV.empty =
                row.getD (2 + (j - 2)) CV.empty := by
              simp [List.getD_eq_getElem?_getD, List.getElem?_drop]
            rw [hdg, show 2 + (j - 2) = j by omega]
            rfl
        · rw [updateTopLeft, cellAt_cons_succ, ih hvs grest i j]
          by_cases hj : j < 2
          · by_cases hi : i < vs.length
            · rw [if_pos ⟨hi, hj⟩, if_pos ⟨Nat.succ_lt_succ hi, hj⟩]
              rfl
            · rw [if_neg (fun hc => hi hc.1),
                  if_neg (fun hc => hi (Nat.lt_of_succ_lt_succ hc.1))]
              rfl
          · rw [if_neg (fun hc => hj hc.2), if_neg (fun hc => hj hc.2)]
            rfl

theorem append_cons_if_isEmpty {α : Type} (x l : List α) :
    (if l.isEmpty then x else x ++ l) = x ++ l := by
  cases l <;> simp

theorem isEmpty_false_of_ne_nil {α : Type} {l : List α} (h : l ≠ []) :
    l.isEmpty = false := by
  cases l
  · exact absurd rfl h
  · rfl

theorem contains_eq_true_of_mem {x : CV} {l : List CV} (h : x ∈ l) :
    l.contains x = true := by
  simpa [List.contains] using List.elem_iff.mpr h

theorem mem_of_contains_eq_true {x : CV} {l : List CV}
    (h : l.contains x = true) : x ∈ l := by
  exact List.elem_iff.mp (by simpa [List.contains] using h)

theorem dropTrailingEmpty_exists_suffix (l : List CV) :
    ∃ t, l = dropTrailingEmpty l ++ t := by
  refine ⟨(l.reverse.takeWhile isEmptyCV).reverse, ?_⟩
  rw [dropTrailingEmpty]
  calc l = l.reverse.reverse := (List.reverse_reverse l).symm
    _ = ((l.reverse.takeWhile isEmptyCV) ++
          (l.reverse.dropWhile isEmptyCV)).reverse := by
        rw [List.takeWhile_append_dropWhile]
    _ = (l.reverse.dropWhile isEmptyCV).reverse ++
          (l.reverse.takeWhile isEmptyCV).reverse := by
        rw [List.reverse_append]

theorem dropTrailingEmpty_append_last (l1 l2 : List CV) (h2 : l2 ≠ [])
    (hlast : isEmptyCV (l2.getLast h2) = false) :
    dropTrailingEmpty (l1 ++ l2) = l1 ++ l2 := by
  have hl2rev : l2.reverse = l2.getLast h2 :: l2.dropLast.reverse := by
    conv_lhs => rw [← List.dropLast_append_getLast h2]
    rw [List.reverse_append]
    simp
  have hrev : (l1 ++ l2).reverse =
      l2.getLast h2 :: (l2.dropLast.reverse ++ l1.reverse) := by
    rw [List.reverse_append, hl2rev, List.cons_append]
  rw [dropTrailingEmpty, hrev, List.dropWhile_cons, hlast]
  rw [if_neg Bool.false_ne_true, ← hrev, List.reverse_reverse]

theorem dropTrailingEmpty_append_all_ne (l1 l2 : List CV) (h2 : l2 ≠ [])
    (hall : ∀ c ∈ l2, isEmptyCV c = false) :
    dropTrailingEmpty (l1 ++ l2) = l1 ++ l2 :=
  dropTrailingEmpty_append_last l1 l2 h2 (hall _ (List.getLast_mem h2))

/-- One characterization covering both branches of `append_only_cols_ab`:
the sheet written first (header installed only when column A is empty), then
the rows of the records whose date is not among the truthy post-header
values of column A, and the count of those rows. -/
theorem append_only_spec (g : Grid) (records : List Record) :
    append_only_cols_ab g records =
      ((if (colValuesA g).isEmpty then updateTopLeft g [headerRow] else g) ++
        (records.filter (fun r =>
          !(((colValuesA g).drop 1).filter truthy).contains
            (CV.date r.date))).map recRow,
       (records.filter (fun r =>
          !(((colValuesA g).drop 1).filter truthy).contains
            (CV.date r.date))).length) := by
  rw [append_only_cols_ab]
  by_cases he : (colValuesA g).isEmpty
  · have hnil : colValuesA g = [] := List.isEmpty_iff.mp he
    simp only [he, if_true, hnil, List.drop_nil, List.filter_nil,
      append_cons_if_isEmpty, List.length_map]
    simp
  · simp only [he, if_false, Bool.false_eq_true, append_cons_if_isEmpty,
      List.length_map]

/-! ### Claim theorems -/

/-- C4: `fetch_rhodl_json` with the default bound of 3 issues at most the
attempts 1, 2, 3; a success at any attempt returns the parsed JSON at once
with no further attempts; each failed non-final attempt is followed by a
sleep of `1.5 * attempt` seconds; and only after all 3 attempts fail does it
exit fatally, reporting the retry bound and the last underlying error. -/
theorem C4_fetch_retries {E J : Type} (tryAt : Nat → Except E J) :
    fetch_rhodl_json tryAt =
      match tryAt 1 with
      | .ok j => ⟨.ok j, [1], []⟩
      | .error _ =>
        match tryAt 2 with
        | .ok j => ⟨.ok j, [1, 2], [3 / 2 * (1 : Rat)]⟩
        | .error _ =>
          match tryAt 3 with
          | .ok j => ⟨.ok j, [1, 2, 3], [3 / 2 * (1 : Rat), 3 / 2 * (2 : Rat)]⟩
          | .error e3 =>
              ⟨.error (3, some e3), [1, 2, 3],
                [3 / 2 * (1 : Rat), 3 / 2 * (2 : Rat)]⟩ := by
  rw [fetch_rhodl_json]
  cases h1 : tryAt 1 with
  | ok j => simp [fetchGo, h1]
  | error e1 =>
      cases h2 : tryAt 2 with
      | ok j => simp [fetchGo, h1, h2]
      | error e2 =>
          cases h3 : tryAt 3 with
          | ok j => simp [fetchGo, h1, h2, h3]
          | error e3 => simp [fetchGo, h1, h2, h3]

/-- C5: in overwrite mode the resulting sheet reads, cell by cell: in columns
A and B the header row followed by one `(date, ratio)` row per record and
empty below them (everything previously in A/B is cleared), and in every
other column exactly what the sheet held before. -/
theorem C5_overwrite_frame (g : Grid) (records : List Record) (i j : Nat) :
    cellAt (write_cols_ab_overwrite g records) i j =
      if j < 2 then
        ((headerRow :: records.map recRow).getD i []).getD j CV.empty
      else cellAt g i j := by
  have hv : ∀ v ∈ headerRow :: records.map recRow, v.length = 2 := by
    intro v hvm
    rcases List.mem_cons.mp hvm with rfl | hvm
    · rfl
    · rcases List.mem_map.mp hvm with ⟨r, -, rfl⟩
      rfl
  rw [write_cols_ab_overwrite,
    cellAt_updateTopLeft (headerRow :: records.map recRow) hv
      (batch_clear_AB g) i j]
  by_cases hj : j < 2
  · by_cases hi : i < (headerRow :: records.map recRow).length
    · rw [if_pos ⟨hi, hj⟩, if_pos hj]
    · rw [if_neg (fun hc => hi hc.1), cellAt_batch_clear_AB, if_pos hj,
        if_pos hj,
        List.getD_eq_default (headerRow :: records.map recRow) ([] : List CV)
          (by omega)]
      simp
  · rw [if_neg (fun hc => hj hc.2), if_neg hj, cellAt_batch_clear_AB,
      if_neg hj]

/-- C9: the primary clear (`batch_clear(["A:B"])`) and the fallback clear
(raw `updateCells` over column indices 0–2 with no row bound) produce the
same worksheet state, and that state has columns A and B empty in every row
with every other cell unchanged. -/
theorem C9_clear_paths_equivalent (g : Grid) :
    batch_clear_fallback g = batch_clear_AB g ∧
      ∀ i j, cellAt (batch_clear_AB g) i j =
        if j < 2 then CV.empty else cellAt g i j := by
  constructor
  · rw [batch_clear_fallback, batch_clear_AB]
    exact List.map_congr_left fun row _ => clearColsFrom_eq_clearABRow row
  · exact fun i j => cellAt_batch_clear_AB g i j

/-- C1: for every input row list on which `normalize` succeeds, the returned
record list is strictly ascending in `date`: sorted ascending, with no two
records sharing a date. -/
theorem C1_normalize_sorted_unique (rows : List RawRow) (recs : List Record)
    (h : normalize rows = .ok recs) :
    recs.Pairwise (fun a b => a.date < b.date) := by
  rcases normalize_ok_elim h with ⟨out, hm, rfl⟩
  rcases keys_foldl_dictInsert_sublist (pySortByDate out) [] with ⟨t, ht, hs⟩
  have hkeys : (dictOfByDate (pySortByDate out)).map Prod.fst = t := by
    simpa [dictOfByDate] using ht
  have hsorted : ((pySortByDate out).map (fun r => r.date)).Pairwise
      (fun a b => a ≤ b) :=
    List.pairwise_map.mpr (pairwise_pySortByDate out)
  have hle : t.Pairwise (fun a b => a ≤ b) := hsorted.sublist hs
  have hnd : ((dictOfByDate (pySortByDate out)).map Prod.fst).Nodup :=
    nodup_keys_foldl_dictInsert (pySortByDate out) [] (by simp)
  rw [hkeys] at hnd
  have hlt : t.Pairwise (fun a b => a < b) :=
    (hle.and hnd).imp fun hab => lt_of_le_of_ne hab.1 hab.2
  rw [← hkeys] at hlt
  have hpair1 : (dictOfByDate (pySortByDate out)).Pairwise
      (fun p q => p.1 < q.1) := List.pairwise_map.mp hlt
  have hpair2 : (dictOfByDate (pySortByDate out)).Pairwise
      (fun p q => p.2.date < q.2.date) := by
    refine List.Pairwise.imp_of_mem ?_ hpair1
    intro p q hp hq h1
    rwa [key_eq_date_of_mem_dictOfByDate hp,
         key_eq_date_of_mem_dictOfByDate hq] at h1
  exact List.pairwise_map.mpr hpair2

/-- C1 witness: `normalize` on three concrete rows (two of which share UTC
day 0) yields a record list with strictly increasing dates. -/
theorem C1_witness :
    List.Pairwise (fun a b => a.date < b.date)
      ([⟨0, 3, 0, 1000⟩, ⟨1, 2, 0, 86400000⟩] : List Record) :=
  C1_normalize_sorted_unique
    [⟨some (.num 86400000), some (.num 2), none⟩,
     ⟨some (.num 0), some (.num 1), none⟩,
     ⟨some (.num 1000), some (.num 3), none⟩]
    [⟨0, 3, 0, 1000⟩, ⟨1, 2, 0, 86400000⟩] (by rfl)

/-- C2: when two or more input rows resolve to the same UTC date, the record
`normalize` keeps for that date is the one built from the row occurring last
in the original input order (`out` is the record list in input order): for
every output record, it is the last element of the input-order records of its
date, and every input date is represented in the output. -/
theorem C2_dedup_keeps_last_input_row (rows : List RawRow)
    (out recs : List Record) (hm : mapToRecords rows = .ok out)
    (hn : normalize rows = .ok recs) :
    (∀ rec ∈ recs,
        (out.filter (fun y => y.date = rec.date)).getLast? = some rec) ∧
      (∀ r ∈ out, ∃ rec ∈ recs, rec.date = r.date) := by
  rcases normalize_ok_elim hn with ⟨out', hm', heq⟩
  rw [hm] at hm'
  injection hm' with hm'
  subst hm'
  subst heq
  constructor
  · intro rec hrec
    rcases List.mem_map.mp hrec with ⟨p, hp, hsnd⟩
    obtain ⟨pk, pv⟩ := p
    have hsnd' : pv = rec := hsnd
    subst hsnd'
    have hkey : pk = pv.date := key_eq_date_of_mem_dictOfByDate hp
    have hl := mem_dictOfByDate.mp hp
    rw [filter_pySortByDate] at hl
    rw [← hkey]
    exact hl
  · intro r hr
    have hrs : r ∈ pySortByDate out := (perm_pySortByDate out).mem_iff.mpr hr
    have hfin : r ∈ (pySortByDate out).filter (fun y => y.date = r.date) :=
      List.mem_filter.mpr ⟨hrs, by simp⟩
    rcases hfl : (pySortByDate out).filter (fun y => y.date = r.date)
      with _ | ⟨q, t⟩
    · rw [hfl] at hfin
      simp at hfin
    · have hgl : (q :: t).getLast? = some ((q :: t).getLast (by simp)) :=
        List.getLast?_eq_getLast_of_ne_nil (by simp)
      have hxmem : (q :: t).getLast (by simp) ∈
          (pySortByDate out).filter (fun y => y.date = r.date) := by
        rw [hfl]
        exact List.getLast_mem _
      have hxdate : ((q :: t).getLast (by simp)).date = r.date := by
        simpa using (List.mem_filter.mp hxmem).2
      have hdict : (r.date, (q :: t).getLast (by simp)) ∈
          dictOfByDate (pySortByDate out) := by
        refine mem_dictOfByDate.mpr ?_
        rw [hfl]
        exact hgl
      exact ⟨(q :: t).getLast (by simp),
        List.mem_map.mpr ⟨(r.date, (q :: t).getLast (by simp)), hdict, rfl⟩,
        hxdate⟩

/-- C2 witness: rows with timestamps 86400000, 0, 1000 (the last two share
UTC day 0); the surviving day-0 record is the one from the later row
(ratio 3, timestamp 1000), and both days are represented. -/
theorem C2_witness :
    (∀ rec ∈ ([⟨0, 3, 0, 1000⟩, ⟨1, 2, 0, 86400000⟩] : List Record),
        (([⟨1, 2, 0, 86400000⟩, ⟨0, 1, 0, 0⟩, ⟨0, 3, 0, 1000⟩] :
            List Record).filter
          (fun y => y.date = rec.date)).getLast? = some rec) ∧
      (∀ r ∈ ([⟨1, 2, 0, 86400000⟩, ⟨0, 1, 0, 0⟩, ⟨0, 3, 0, 1000⟩] :
          List Record),
        ∃ rec ∈ ([⟨0, 3, 0, 1000⟩, ⟨1, 2, 0, 86400000⟩] : List Record),
          rec.date = r.date) :=
  C2_dedup_keeps_last_input_row
    [⟨some (.num 86400000), some (.num 2), none⟩,
     ⟨some (.num 0), some (.num 1), none⟩,
     ⟨some (.num 1000), some (.num 3), none⟩]
    [⟨1, 2, 0, 86400000⟩, ⟨0, 1, 0, 0⟩, ⟨0, 3, 0, 1000⟩]
    [⟨0, 3, 0, 1000⟩, ⟨1, 2, 0, 86400000⟩] (by rfl) (by rfl)

/-- C3 counterexample: the claim says every input row yields an output record
carrying that row's converted fields.  With two rows on the same UTC day 0
(timestamps 0 and 1000, ratios 1 and 3), `normalize` succeeds but returns
only the record of the later row: no output record carries ratio 1 or
timestamp 0, although the first row's fields are valid. -/
theorem C3_counterexample :
    normalize [⟨some (.num 0), some (.num 1), none⟩,
               ⟨some (.num 1000), some (.num 3), none⟩] =
        .ok [⟨0, 3, 0, 1000⟩] ∧
      ∀ rec ∈ ([⟨0, 3, 0, 1000⟩] : List Record),
        rec.rhodl_ratio ≠ 1 ∧ rec.timestamp_ms ≠ 0 :=
  ⟨rfl, by decide⟩

/-- C3 (amended): the per-row mapping holds for the record list `normalize`
builds in input order — positionally, each record's `date` is the UTC epoch
day of `int(row["timestamp"])`, `timestamp_ms` that integer, `rhodl_ratio`
the row's ratio as float, and `price` the row's price (0.0 when absent) — and
the output keeps exactly those mapped records that are last of their date in
input order (records of non-last rows are superseded). -/
theorem C3_per_row_mapping (rows : List RawRow) (out recs : List Record)
    (hm : mapToRecords rows = .ok out) (hn : normalize rows = .ok recs) :
    List.Forall₂ MappedFrom rows out ∧
      (∀ r : Record,
        (out.filter (fun y => y.date = r.date)).getLast? = some r →
          r ∈ recs) ∧
      (∀ rec ∈ recs, rec ∈ out) := by
  rcases normalize_ok_elim hn with ⟨out', hm', heq⟩
  rw [hm] at hm'
  injection hm' with hm'
  subst hm'
  subst heq
  refine ⟨?_, ?_, ?_⟩
  · exact List.Forall₂.imp (fun row r h => toRecord_ok_mapped h)
      (mapToRecords_ok_forall2 hm)
  · intro r hlast
    have hd : (r.date, r) ∈ dictOfByDate (pySortByDate out) := by
      refine mem_dictOfByDate.mpr ?_
      rwa [filter_pySortByDate]
    exact List.mem_map.mpr ⟨(r.date, r), hd, rfl⟩
  · intro rec hrec
    rcases List.mem_map.mp hrec with ⟨p, hp, hsnd⟩
    obtain ⟨pk, pv⟩ := p
    cases hsnd
    have hl := mem_dictOfByDate.mp hp
    have hmemf := mem_of_getLast?_eq_some hl
    have hmems : pv ∈ pySortByDate out := (List.mem_filter.mp hmemf).1
    exact (perm_pySortByDate out).mem_iff.mp hmems

/-- C3 witness: two rows on UTC day 0; the mapped records pair positionally
with the rows, and the output keeps exactly the one that is last of its
date. -/
theorem C3_witness :
    List.Forall₂ MappedFrom
        [⟨some (.num 0), some (.num 1), none⟩,
         ⟨some (.num 1000), some (.num 3), none⟩]
        ([⟨0, 1, 0, 0⟩, ⟨0, 3, 0, 1000⟩] : List Record) ∧
      (∀ r : Record,
        (([⟨0, 1, 0, 0⟩, ⟨0, 3, 0, 1000⟩] : List Record).filter
            (fun y => y.date = r.date)).getLast? = some r →
          r ∈ ([⟨0, 3, 0, 1000⟩] : List Record)) ∧
      (∀ rec ∈ ([⟨0, 3, 0, 1000⟩] : List Record),
        rec ∈ ([⟨0, 1, 0, 0⟩, ⟨0, 3, 0, 1000⟩] : List Record)) :=
  C3_per_row_mapping
    [⟨some (.num 0), some (.num 1), none⟩,
     ⟨some (.num 1000), some (.num 3), none⟩]
    [⟨0, 1, 0, 0⟩, ⟨0, 3, 0, 1000⟩]
    [⟨0, 3, 0, 1000⟩] (by rfl) (by rfl)

/-- C10 counterexample: a row whose `timestamp` and `rhodl_ratio` are both
convertible but whose present `price` is null makes `normalize` raise
(TypeError from `float(None)`), refuting "normalize returns normally if and
only if every row has convertible timestamp and rhodl_ratio values". -/
theorem C10_counterexample :
    ¬ (((normalize [⟨some (.num 0), some (.num 1), some .null⟩]).isOk = true) ↔
        (∀ row ∈ [(⟨some (.num 0), some (.num 1), some .null⟩ : RawRow)],
          rowTsRatioOk row = true)) := by
  decide

/-- C10 (amended): `normalize` returns normally if and only if every row has
a convertible `timestamp`, a convertible `rhodl_ratio`, and — when a `price`
is present — a convertible `price`; and a row-level error propagates out of
the pipeline as an uncaught exception, not through the descriptive
fatal-message path reserved for a malformed top-level response shape. -/
theorem C10_row_errors_propagate (rows : List RawRow) :
    ((normalize rows).isOk = true ↔ ∀ row ∈ rows, rowOk row = true) ∧
      ∀ e, normalize rows = .error e →
        mainNormalizeStage (.dictData rows) = .pyException e := by
  constructor
  · rw [normalize_isOk_eq, List.all_eq_true]
  · intro e he
    simp only [mainNormalizeStage, he]

/-- C10 witness: the bad-price row makes the pipeline's normalization stage
end in an uncaught TypeError. -/
theorem C10_witness :
    mainNormalizeStage
        (.dictData [⟨some (.num 0), some (.num 1), some .null⟩]) =
      .pyException .typeError :=
  (C10_row_errors_propagate
    [⟨some (.num 0), some (.num 1), some .null⟩]).2 .typeError (by rfl)

/-- C6: append mode reads column A, skips the first cell as a header (or,
when the column is completely empty, installs the header first and starts
from no dates), appends to the end of the sheet exactly the rows of the input
records whose date is not among the already-present truthy dates, in input
order, and returns the number of rows appended. -/
theorem C6_append_missing_dates (g : Grid) (records : List Record) :
    (append_only_cols_ab g records).2 =
        (records.filter (fun r =>
          !(((colValuesA g).drop 1).filter truthy).contains
            (CV.date r.date))).length ∧
      (append_only_cols_ab g records).1 =
        (if (colValuesA g).isEmpty then updateTopLeft g [headerRow] else g) ++
          (records.filter (fun r =>
            !(((colValuesA g).drop 1).filter truthy).contains
              (CV.date r.date))).map recRow := by
  rw [append_only_spec]
  exact ⟨rfl, rfl⟩

/-- C7: the append merge is idempotent: after one append run against a sheet
with a non-empty date column, running the same append again adds zero rows,
reports 0, and leaves the sheet unchanged. -/
theorem C7_append_idempotent (g : Grid) (records : List Record)
    (hne : colValuesA g ≠ []) :
    append_only_cols_ab (append_only_cols_ab g records).1 records =
      ((append_only_cols_ab g records).1, 0) := by
  have hemp : (colValuesA g).isEmpty = false := isEmpty_false_of_ne_nil hne
  have hg1 : (append_only_cols_ab g records).1 =
      g ++ (records.filter (fun r =>
        !(((colValuesA g).drop 1).filter truthy).contains
          (CV.date r.date))).map recRow := by
    rw [append_only_spec]
    simp [hemp]
  rw [hg1]
  by_cases hFnil : records.filter (fun r =>
      !(((colValuesA g).drop 1).filter truthy).contains
        (CV.date r.date)) = []
  · rw [hFnil]
    simp only [List.map_nil, List.append_nil]
    rw [append_only_spec, hFnil]
    simp [hemp]
  · have hFmapne : (records.filter (fun r =>
        !(((colValuesA g).drop 1).filter truthy).contains
          (CV.date r.date))).map recRow ≠ [] := by
      simpa using hFnil
    have hcols : colValuesA (g ++ (records.filter (fun r =>
        !(((colValuesA g).drop 1).filter truthy).contains
          (CV.date r.date))).map recRow) =
        g.map (fun row => row.getD 0 CV.empty) ++
          (records.filter (fun r =>
            !(((colValuesA g).drop 1).filter truthy).contains
              (CV.date r.date))).map (fun r => CV.date r.date) := by
      rw [colValuesA, List.map_append, List.map_map]
      have hcomp : (fun row => row.getD 0 CV.empty) ∘ recRow =
          fun r : Record => CV.date r.date := rfl
      rw [hcomp]
      refine dropTrailingEmpty_append_all_ne _ _ (by simpa using hFnil) ?_
      intro c hc
      rcases List.mem_map.mp hc with ⟨r, -, rfl⟩
      rfl
    have hgmap : g.map (fun row => row.getD 0 CV.empty) ≠ [] := by
      intro hcon
      apply hne
      rw [colValuesA, hcon]
      rfl
    have hglen : 1 ≤ (g.map (fun row => row.getD 0 CV.empty)).length := by
      rcases g with _ | ⟨r0, g0⟩
      · exact absurd rfl hgmap
      · simp
    have hcvlen : 1 ≤ (colValuesA g).length := by
      rcases hcv : colValuesA g with _ | ⟨c, cs⟩
      · exact absurd hcv hne
      · simp
    obtain ⟨t, ht0⟩ :=
      dropTrailingEmpty_exists_suffix (g.map (fun row => row.getD 0 CV.empty))
    have ht : g.map (fun row => row.getD 0 CV.empty) = colValuesA g ++ t := ht0
    have hdrop : (g.map (fun row => row.getD 0 CV.empty)).drop 1 =
        (colValuesA g).drop 1 ++ t := by
      rw [ht, List.drop_append_of_le_length hcvlen]
    have hall : ∀ r ∈ records,
        (((colValuesA (g ++ (records.filter (fun r =>
            !(((colValuesA g).drop 1).filter truthy).contains
              (CV.date r.date))).map recRow)).drop 1).filter
          truthy).contains (CV.date r.date) = true := by
      intro r hr
      apply contains_eq_true_of_mem
      rw [hcols, List.drop_append_of_le_length hglen, List.filter_append]
      by_cases hc : (((colValuesA g).drop 1).filter truthy).contains
          (CV.date r.date)
      · refine List.mem_append_left _ ?_
        have hmem := mem_of_contains_eq_true hc
        have hmem2 := List.mem_filter.mp hmem
        refine List.mem_filter.mpr ⟨?_, hmem2.2⟩
        rw [hdrop]
        exact List.mem_append_left _ hmem2.1
      · refine List.mem_append_right _ ?_
        refine List.mem_filter.mpr ⟨?_, rfl⟩
        refine List.mem_map.mpr ⟨r, ?_, rfl⟩
        refine List.mem_filter.mpr ⟨hr, ?_⟩
        simp only [hc]
        rfl
    have hfilter2 : records.filter (fun r =>
        !(((colValuesA (g ++ (records.filter (fun r =>
            !(((colValuesA g).drop 1).filter truthy).contains
              (CV.date r.date))).map recRow)).drop 1).filter
          truthy).contains (CV.date r.date)) = [] := by
      rw [List.filter_eq_nil_iff]
      intro r hr
      rw [hall r hr]
      simp
    have hcolsne : colValuesA (g ++ (records.filter (fun r =>
        !(((colValuesA g).drop 1).filter truthy).contains
          (CV.date r.date))).map recRow) ≠ [] := by
      rw [hcols]
      intro hcon
      rcases List.append_eq_nil.mp hcon with ⟨-, h2⟩
      exact hFnil (by simpa using h2)
    rw [append_only_spec, hfilter2,
      isEmpty_false_of_ne_nil hcolsne, if_neg Bool.false_ne_true]
    simp

/-- C7 witness: a sheet with a header and the day-0 row; appending records
for days 0 and 1 adds the day-1 row, and appending the same records again
adds nothing and leaves the sheet unchanged. -/
theorem C7_witness :
    append_only_cols_ab
        (append_only_cols_ab
          [[CV.str "Date", CV.str "RHODL Ratio"], [CV.date 0, CV.num 1]]
          [⟨0, 1, 0, 0⟩, ⟨1, 2, 0, 86400000⟩]).1
        [⟨0, 1, 0, 0⟩, ⟨1, 2, 0, 86400000⟩] =
      ((append_only_cols_ab
          [[CV.str "Date", CV.str "RHODL Ratio"], [CV.date 0, CV.num 1]]
          [⟨0, 1, 0, 0⟩, ⟨1, 2, 0, 86400000⟩]).1, 0) :=
  C7_append_idempotent
    [[CV.str "Date", CV.str "RHODL Ratio"], [CV.date 0, CV.num 1]]
    [⟨0, 1, 0, 0⟩, ⟨1, 2, 0, 86400000⟩] (by decide)

theorem decodeList_map_recordToJson (records : List Record) :
    decodeList (records.map recordToJson) = some records := by
  induction records with
  | nil => rfl
  | cons r rs ih =>
      show (match jsonToRecord (recordToJson r) with
            | none => none
            | some rcd =>
                match decodeList (rs.map recordToJson) with
                | none => none
                | some rest => some (rcd :: rest)) = some (r :: rs)
      rw [show jsonToRecord (recordToJson r) = some r from rfl, ih]

/-- C8: the document `save_json` serializes for a record list parses back to
a record list deep-equal to the input (round-trip at the JSON document
level; the byte layer is `json.dump`/`json.load`, which is faithful to the
document). -/
theorem C8_save_roundtrip (records : List Record) :
    jsonToRecords (save_json_doc records) = some records := by
  show decodeList (records.map recordToJson) = some records
  exact decodeList_map_recordToJson records

end RHODL
